import Mathlib

set_option maxHeartbeats 1000000
set_option linter.unnecessarySimpa false

/-!
Shallow embedding of the Huffman compression core of `src/main.py`
(`HuffmanCompressor`): frequency table, CPython-heapq tree construction,
code generation, bit packing, and the compress/decompress pipeline.
Bytes are modelled as `Nat` (every value below 256), bits as `Bool`
(`false` for the character "0", `true` for "1"), and Python's `None`
for tree references as the `nil` constructor of `HNode`.
-/

namespace FileCompression

/-- Model of `HuffmanNode` references: `nil` is Python's `None`; `mk` is a
`HuffmanNode(char, freq, left, right)` object (leaf nodes carry
`char = some c` and `nil` children). -/
inductive HNode where
  | nil : HNode
  | mk (char : Option Nat) (freq : Nat) (left : HNode) (right : HNode) : HNode
deriving DecidableEq, Repr

/-- `node.freq` (0 is a dummy for `nil`, never read by the modelled code). -/
def HNode.freqOf : HNode → Nat
  | .nil => 0
  | .mk _ f _ _ => f

/-- `node.char`. -/
def HNode.charOf : HNode → Option Nat
  | .nil => none
  | .mk c _ _ _ => c

/-- `HuffmanNode.__lt__`: comparison by `freq` only. -/
def hlt (a b : HNode) : Bool := a.freqOf < b.freqOf

/-- Array indexing `heap[i]` (in the modelled runs `i` is always in bounds). -/
def listGet (l : List HNode) (i : Nat) : HNode := l.getD i .nil

/-! CPython `heapq` model: `_siftdown`, `_siftup`, `heappush`, `heappop`.
The `while` loops of `_siftdown`, `_siftup` and of the tree-building merge
are made structurally recursive on an explicit fuel argument; each caller
passes fuel that provably outlasts the loop (the position being sifted,
the heap size, the bit-string length), so the fuel-0 fallback always
coincides with the loop's own exit branch and is never the reason a call
stops. -/

/-- The loop of CPython `heapq._siftdown(heap, startpos, pos)` with
`newitem` already read from `heap[pos]`. The position at least halves
each iteration, so any `fuel ≥ pos` outlasts the loop; the fuel-0 result
equals the exit branch (a write of `newitem` at `pos`). -/
def siftdownGo : Nat → List HNode → Nat → Nat → HNode → List HNode
  | 0, heap, _, pos, newitem => heap.set pos newitem
  | fuel + 1, heap, startpos, pos, newitem =>
    if startpos < pos then
      if hlt newitem (listGet heap ((pos - 1) / 2)) then
        siftdownGo fuel (heap.set pos (listGet heap ((pos - 1) / 2))) startpos
          ((pos - 1) / 2) newitem
      else heap.set pos newitem
    else heap.set pos newitem

/-- `heapq.heappush`: append then sift down from the last position. -/
def heappush (heap : List HNode) (item : HNode) : List HNode :=
  siftdownGo heap.length (heap ++ [item]) 0 heap.length item

/-- Child selection inside `heapq._siftup`: move to the right child when it
exists and the left child is not strictly smaller. -/
def childSel (heap : List HNode) (childpos : Nat) : Nat :=
  if childpos + 1 < heap.length ∧
      ¬ (hlt (listGet heap childpos) (listGet heap (childpos + 1)) = true) then
    childpos + 1
  else childpos

/-- The loop of CPython `heapq._siftup(heap, pos)` (bubble the smaller child
up until `pos` has no child); returns the heap and the final position,
with `newitem` written there. The position strictly increases and stays
below the heap size, so `fuel ≥ heap.length` outlasts the loop; the
fuel-0 result equals the childless exit branch. -/
def siftupGo : Nat → List HNode → Nat → HNode → List HNode × Nat
  | 0, heap, pos, newitem => (heap.set pos newitem, pos)
  | fuel + 1, heap, pos, newitem =>
    if 2 * pos + 1 < heap.length then
      siftupGo fuel (heap.set pos (listGet heap (childSel heap (2 * pos + 1))))
        (childSel heap (2 * pos + 1)) newitem
    else (heap.set pos newitem, pos)

/-- `heapq._siftup(heap, pos)`: the loop followed by the final `_siftdown`
from the final position back toward `pos`. -/
def siftup (heap : List HNode) (pos : Nat) : List HNode :=
  siftdownGo (siftupGo heap.length heap pos (listGet heap pos)).2
    (siftupGo heap.length heap pos (listGet heap pos)).1 pos
    (siftupGo heap.length heap pos (listGet heap pos)).2
    (listGet heap pos)

/-- `heapq.heappop`: remove the last element; if the heap is still non-empty,
overwrite the root with it, sift up, and return the old root. -/
def heappop (heap : List HNode) : HNode × List HNode :=
  match heap with
  | [] => (.nil, [])
  | _ :: _ =>
    match heap.dropLast with
    | [] => (listGet heap (heap.length - 1), [])
    | b :: u =>
      (listGet (b :: u) 0,
       siftup ((b :: u).set 0 (listGet heap (heap.length - 1))) 0)

/-! Tree construction (`_build_huffman_tree`). -/

/-- The initial heap of leaf nodes pushed in `freq_table.items()` order. -/
def heapFromFreqTable (ft : List (Nat × Nat)) : List HNode :=
  ft.foldl (fun h p => heappush h (.mk (some p.1) p.2 .nil .nil)) []

/-- The `while len(heap) > 1` merge loop of `_build_huffman_tree`,
returning `heap[0]` when one node remains. Each iteration shrinks the
heap by one, so `fuel ≥ heap.length` outlasts the loop; the fuel-0 result
equals the exit branch `heap[0]`. -/
def buildLoopGo : Nat → List HNode → HNode
  | 0, heap => listGet heap 0
  | fuel + 1, heap =>
    if 1 < heap.length then
      buildLoopGo fuel (heappush (heappop (heappop heap).2).2
        (.mk none
          ((heappop heap).1.freqOf + (heappop (heappop heap).2).1.freqOf)
          (heappop heap).1 (heappop (heappop heap).2).1))
    else listGet heap 0

/-- The merge loop entered with adequate fuel. -/
def buildLoop (heap : List HNode) : HNode := buildLoopGo heap.length heap

/-- `_build_huffman_tree`: push one leaf per `(char, freq)` item; a
single-entry table yields a childless-right root holding the lone leaf on
the left; otherwise run the merge loop. -/
def buildHuffmanTree (ft : List (Nat × Nat)) : HNode :=
  if (heapFromFreqTable ft).length = 1 then
    .mk none (listGet (heapFromFreqTable ft) 0).freqOf
      (heappop (heapFromFreqTable ft)).1 .nil
  else buildLoop (heapFromFreqTable ft)

/-! Frequency table (`_build_frequency_table`, i.e. `Counter(data)`):
association list keyed in first-occurrence order with exact counts,
matching `Counter`'s insertion-ordered dict. -/

/-- One step of counting: bump the key if present, else append `(b, 1)`. -/
def insertByte (acc : List (Nat × Nat)) (b : Nat) : List (Nat × Nat) :=
  match acc with
  | [] => [(b, 1)]
  | (k, v) :: rest =>
    if k = b then (k, v + 1) :: rest else (k, v) :: insertByte rest b

/-- `_build_frequency_table(data)` = `Counter(data)`. -/
def buildFrequencyTable (data : List Nat) : List (Nat × Nat) :=
  data.foldl insertByte []

/-! Code generation (`_generate_codes`). -/

/-- The inner `traverse(node, code)` of `_generate_codes`: record
`code or "0"` at nodes whose `char` is set, else recurse into non-`None`
children appending "0" left and "1" right. -/
def traverseCodes (n : HNode) (code : List Bool) : List (Nat × List Bool) :=
  match n with
  | .nil => []
  | .mk c _ l r =>
    match c with
    | some ch => [(ch, if code = [] then [false] else code)]
    | none =>
      (match l with
        | .nil => []
        | .mk c2 f2 l2 r2 => traverseCodes (.mk c2 f2 l2 r2) (code ++ [false]))
      ++
      (match r with
        | .nil => []
        | .mk c2 f2 l2 r2 => traverseCodes (.mk c2 f2 l2 r2) (code ++ [true]))

/-- `_generate_codes(root)`: `{}` when root is `None`. -/
def generateCodes (root : HNode) : List (Nat × List Bool) :=
  match root with
  | .nil => []
  | _ => traverseCodes root []

/-- Dictionary lookup `codes[byte]` (the built code books have distinct
keys, so first match coincides with dict lookup). -/
def lookupCode (codes : List (Nat × List Bool)) (b : Nat) : Option (List Bool) :=
  match codes with
  | [] => none
  | (k, v) :: rest => if k = b then some v else lookupCode rest b

/-- `_encode_data`: concatenate `codes[byte]` over the input; `none` models
the `KeyError` on a byte with no code. -/
def encodeData (data : List Nat) (codes : List (Nat × List Bool)) :
    Option (List Bool) :=
  match data with
  | [] => some []
  | b :: rest =>
    match lookupCode codes b, encodeData rest codes with
    | some c, some e => some (c ++ e)
    | _, _ => none

/-! Decoding (`_decode_data`). -/

/-- One step `current = current.left / current.right` (`false` is bit "0"). -/
def stepT (t : HNode) (b : Bool) : HNode :=
  match t with
  | .nil => .nil
  | .mk _ _ l r => if b then r else l

/-- The `for bit in encoded_data` loop of `_decode_data`; `none` models the
`AttributeError` crash when a step lands on `None`. -/
def decodeLoop (root : HNode) : List Bool → HNode → Option (List Nat)
  | [], _ => some []
  | b :: rest, cur =>
    match stepT cur b with
    | .nil => none
    | .mk c f l r =>
      match c with
      | some ch => (decodeLoop root rest root).map (fun ds => ch :: ds)
      | none => decodeLoop root rest (.mk none f l r)

/-- `_decode_data(encoded_data, root)`: empty bytes when root is `None`. -/
def decodeData (bits : List Bool) (root : HNode) : Option (List Nat) :=
  match root with
  | .nil => some []
  | _ => decodeLoop root bits root

/-! Bit packing (inline in `compress_file` / `decompress_file`). -/

/-- `int(byte_string, 2)` on a most-significant-bit-first chunk. -/
def bitsToNat (bits : List Bool) : Nat :=
  bits.foldl (fun acc b => 2 * acc + (if b then 1 else 0)) 0

/-- `format(byte, "08b")` for a byte value below 256. -/
def byteToBits (n : Nat) : List Bool :=
  [n.testBit 7, n.testBit 6, n.testBit 5, n.testBit 4,
   n.testBit 3, n.testBit 2, n.testBit 1, n.testBit 0]

/-- The `for byte in encoded_bytes: bit_string += format(byte, "08b")` loop. -/
def bytesToBits : List Nat → List Bool
  | [] => []
  | b :: rest => byteToBits b ++ bytesToBits rest

/-- The byte-conversion loop of `compress_file` (`for i in range(0,
len(encoded_data), 8)`): successive 8-bit chunks. The list shrinks by 8
each iteration, so `fuel ≥ l.length` outlasts the loop; the fuel-0 result
equals the empty exit branch. -/
def toBytesGo : Nat → List Bool → List Nat
  | 0, _ => []
  | fuel + 1, l =>
    if l = [] then [] else bitsToNat (l.take 8) :: toBytesGo fuel (l.drop 8)

/-- The chunking loop entered with adequate fuel. -/
def toBytes (l : List Bool) : List Nat := toBytesGo l.length l

/-- `padding = 8 - len(encoded_data) % 8` as computed by `compress_file`
(note: this is 8, not 0, when the length is a multiple of 8). -/
def packPadding (n : Nat) : Nat := 8 - n % 8

/-- The padding append of `compress_file`: add `padding` zero bits unless
`padding == 8`. -/
def padBits (bits : List Bool) : List Bool :=
  if packPadding bits.length ≠ 8 then
    bits ++ List.replicate (packPadding bits.length) false
  else bits

/-- Bit string to payload bytes, as in `compress_file`. -/
def packBits (bits : List Bool) : List Nat := toBytes (padBits bits)

/-- The `compression_data` dict pickled by `compress_file`. -/
structure Container where
  tree : HNode
  encoded_data : List Nat
  padding : Nat
  original_size : Nat
  compressed_size : Nat
deriving DecidableEq, Repr

/-- Failures of the compression core: `emptyInput` is the
`ValueError("Input file is empty")`; `missingCode` stands for the
(unreachable) `KeyError` in `_encode_data`. -/
inductive CompressError where
  | emptyInput : CompressError
  | missingCode : CompressError
deriving DecidableEq, Repr

/-- The data path of `compress_file` (file I/O stripped): frequency table →
tree → codes → encode → pack → container. -/
def compress (data : List Nat) : Except CompressError Container :=
  if data = [] then .error .emptyInput
  else
    match encodeData data
      (generateCodes (buildHuffmanTree (buildFrequencyTable data))) with
    | none => .error .missingCode
    | some encoded =>
      .ok { tree := buildHuffmanTree (buildFrequencyTable data)
            encoded_data := packBits encoded
            padding := packPadding encoded.length
            original_size := data.length
            compressed_size := (packBits encoded).length }

/-- The padding removal of `decompress_file`: `bit_string[:-padding]` when
`padding != 8` (Python's `[:-0]` yields the empty string, hence the
`padding = 0` branch). -/
def stripPadding (bs : List Bool) (padding : Nat) : List Bool :=
  if padding ≠ 8 then
    (if padding = 0 then [] else bs.take (bs.length - padding))
  else bs

/-- The data path of `decompress_file`: rebuild the bit string, strip
padding, decode against the stored tree. -/
def decompress (c : Container) : Option (List Nat) :=
  decodeData (stripPadding (bytesToBits c.encoded_data) c.padding) c.tree

/-! Length preservation of the heap operations. -/

theorem childSel_lt (heap : List HNode) (childpos : Nat)
    (h : childpos < heap.length) : childSel heap childpos < heap.length := by
  unfold childSel; split <;> omega

theorem childSel_ge (heap : List HNode) (childpos : Nat) :
    childpos ≤ childSel heap childpos := by
  unfold childSel; split <;> omega

theorem siftdownGo_length : ∀ (fuel : Nat) (heap : List HNode)
    (startpos pos : Nat) (newitem : HNode),
    (siftdownGo fuel heap startpos pos newitem).length = heap.length := by
  intro fuel
  induction fuel with
  | zero => intro heap s p x; simp [siftdownGo]
  | succ fuel ih =>
    intro heap s p x
    simp only [siftdownGo]
    split
    · split
      · rw [ih]
        simp
      · simp
    · simp

theorem siftupGo_length : ∀ (fuel : Nat) (heap : List HNode) (pos : Nat)
    (newitem : HNode), (siftupGo fuel heap pos newitem).1.length =
      heap.length := by
  intro fuel
  induction fuel with
  | zero => intro heap p x; simp [siftupGo]
  | succ fuel ih =>
    intro heap p x
    simp only [siftupGo]
    split
    · rw [ih]
      simp
    · simp

theorem siftup_length (heap : List HNode) (pos : Nat) :
    (siftup heap pos).length = heap.length := by
  unfold siftup
  rw [siftdownGo_length, siftupGo_length]

theorem heappush_length (heap : List HNode) (item : HNode) :
    (heappush heap item).length = heap.length + 1 := by
  unfold heappush
  rw [siftdownGo_length]
  simp

theorem heappop_length (heap : List HNode) :
    (heappop heap).2.length = heap.length - 1 := by
  unfold heappop
  match heap with
  | [] => simp
  | a :: t =>
    simp only
    match h : (a :: t).dropLast with
    | [] =>
      simp only
      have := congrArg List.length h
      simp [List.length_dropLast] at this
      simp [this]
    | b :: u =>
      simp only
      rw [siftup_length]
      have := congrArg List.length h
      simp [List.length_dropLast] at this
      simp [this]

/-! Multiset (permutation) behaviour of the heap operations. -/

theorem get_cons_set_perm (t : List HNode) (k : Nat) (a : HNode)
    (hk : k < t.length) : (listGet t k :: t.set k a).Perm (a :: t) := by
  induction t generalizing k with
  | nil => simp at hk
  | cons x t' ih =>
    match k with
    | 0 =>
      simp only [listGet, List.getD_cons_zero, List.set_cons_zero]
      exact List.Perm.swap a x t'
    | k + 1 =>
      simp only [listGet, List.getD_cons_succ, List.set_cons_succ]
      have h1 : (listGet t' k :: x :: t'.set k a).Perm
          (x :: listGet t' k :: t'.set k a) := List.Perm.swap _ _ _
      have h2 : (x :: listGet t' k :: t'.set k a).Perm (x :: a :: t') :=
        (ih k (by simpa using hk)).cons x
      have h3 : (x :: a :: t').Perm (a :: x :: t') := List.Perm.swap _ _ _
      exact (h1.trans h2).trans h3

theorem cons_set_swap_perm (t : List HNode) (m : Nat) (a b : HNode)
    (hm : m < t.length) : (a :: t.set m b).Perm (b :: t.set m a) := by
  induction t generalizing m with
  | nil => simp at hm
  | cons x t' ih =>
    match m with
    | 0 =>
      simp only [List.set_cons_zero]
      exact List.Perm.swap b a t'
    | m + 1 =>
      simp only [List.set_cons_succ]
      have h1 : (a :: x :: t'.set m b).Perm (x :: a :: t'.set m b) :=
        List.Perm.swap _ _ _
      have h2 : (x :: a :: t'.set m b).Perm (x :: b :: t'.set m a) :=
        (ih m (by simpa using hm)).cons x
      have h3 : (x :: b :: t'.set m a).Perm (b :: x :: t'.set m a) :=
        List.Perm.swap _ _ _
      exact (h1.trans h2).trans h3

/-- Copying `l[j]` over position `i` and then writing `a` at `j` is, as a
multiset, the same as writing `a` at `i`. -/
theorem set_copy_set_perm (l : List HNode) (i j : Nat) (a : HNode)
    (hi : i < l.length) (hj : j < l.length) (hij : i ≠ j) :
    ((l.set i (listGet l j)).set j a).Perm (l.set i a) := by
  induction l generalizing i j with
  | nil => simp at hi
  | cons x t ih =>
    match i, j with
    | 0, 0 => exact absurd rfl hij
    | 0, k + 1 =>
      simp only [listGet, List.getD_cons_succ, List.set_cons_zero,
        List.set_cons_succ]
      exact get_cons_set_perm t k a (by simpa using hj)
    | m + 1, 0 =>
      simp only [listGet, List.getD_cons_zero, List.set_cons_succ,
        List.set_cons_zero]
      exact cons_set_swap_perm t m a x (by simpa using hi)
    | m + 1, k + 1 =>
      simp only [listGet, List.getD_cons_succ, List.set_cons_succ]
      exact (ih m k (by simpa using hi) (by simpa using hj)
        (by omega)).cons x

theorem set_listGet_self (l : List HNode) (i : Nat) :
    l.set i (listGet l i) = l := by
  induction l generalizing i with
  | nil => simp
  | cons x t ih =>
    match i with
    | 0 => simp [listGet]
    | i + 1 =>
      show x :: t.set i (listGet t i) = x :: t
      rw [ih]

theorem set_append_last (l : List HNode) (a : HNode) :
    (l ++ [a]).set l.length a = l ++ [a] := by
  induction l with
  | nil => simp
  | cons x t ih => simpa using ih

theorem siftdownGo_perm : ∀ (fuel : Nat) (heap : List HNode)
    (startpos pos : Nat) (newitem : HNode), pos < heap.length →
    (siftdownGo fuel heap startpos pos newitem).Perm
      (heap.set pos newitem) := by
  intro fuel
  induction fuel with
  | zero => intro heap s pos x _; exact List.Perm.refl _
  | succ fuel ih =>
    intro heap s pos x hp
    simp only [siftdownGo]
    split
    · split
      · rename_i hs _
        have hpar : (pos - 1) / 2 < heap.length := by omega
        have h1 := ih (heap.set pos (listGet heap ((pos - 1) / 2))) s
          ((pos - 1) / 2) x (by simpa using hpar)
        exact h1.trans (set_copy_set_perm heap pos ((pos - 1) / 2) x hp
          hpar (by omega))
      · exact List.Perm.refl _
    · exact List.Perm.refl _

theorem siftupGo_spec : ∀ (fuel : Nat) (heap : List HNode) (pos : Nat)
    (newitem : HNode), pos < heap.length →
    (siftupGo fuel heap pos newitem).1.Perm (heap.set pos newitem) ∧
    (siftupGo fuel heap pos newitem).2 < heap.length ∧
    (siftupGo fuel heap pos newitem).1.set (siftupGo fuel heap pos newitem).2
      newitem = (siftupGo fuel heap pos newitem).1 := by
  intro fuel
  induction fuel with
  | zero =>
    intro heap pos x hp
    refine ⟨List.Perm.refl _, hp, ?_⟩
    simp only [siftupGo]
    rw [List.set_set]
  | succ fuel ih =>
    intro heap pos x hp
    simp only [siftupGo]
    split
    · rename_i h
      have h1 := childSel_lt heap (2 * pos + 1) h
      have h2 := childSel_ge heap (2 * pos + 1)
      have hrec := ih
        (heap.set pos (listGet heap (childSel heap (2 * pos + 1))))
        (childSel heap (2 * pos + 1)) x (by simpa using h1)
      refine ⟨hrec.1.trans ?_, by simpa using hrec.2.1, hrec.2.2⟩
      exact set_copy_set_perm heap pos (childSel heap (2 * pos + 1)) x hp
        h1 (by omega)
    · refine ⟨List.Perm.refl _, hp, ?_⟩
      rw [List.set_set]

theorem siftup_perm (heap : List HNode) (pos : Nat) (hp : pos < heap.length) :
    (siftup heap pos).Perm heap := by
  unfold siftup
  have hs := siftupGo_spec heap.length heap pos (listGet heap pos) hp
  have hlen : (siftupGo heap.length heap pos (listGet heap pos)).1.length =
      heap.length := siftupGo_length heap.length heap pos _
  have hd := siftdownGo_perm
    (siftupGo heap.length heap pos (listGet heap pos)).2
    (siftupGo heap.length heap pos (listGet heap pos)).1 pos
    (siftupGo heap.length heap pos (listGet heap pos)).2 (listGet heap pos)
    (by rw [hlen]; exact hs.2.1)
  rw [hs.2.2] at hd
  refine (hd.trans hs.1).trans ?_
  rw [set_listGet_self]

theorem heappush_perm (heap : List HNode) (item : HNode) :
    (heappush heap item).Perm (item :: heap) := by
  unfold heappush
  have h1 := siftdownGo_perm heap.length (heap ++ [item]) 0 heap.length item
    (by simp)
  rw [set_append_last] at h1
  exact h1.trans List.perm_append_comm

theorem heappop_perm (heap : List HNode) (h : heap ≠ []) :
    ((heappop heap).1 :: (heappop heap).2).Perm heap := by
  unfold heappop
  match heap, h with
  | a :: t, _ =>
    simp only
    match hd : (a :: t).dropLast with
    | [] =>
      simp only
      have ht : t = [] := by
        have := congrArg List.length hd
        simp [List.length_dropLast] at this
        exact this
      subst ht
      simp [listGet]
    | b :: u =>
      simp only
      have hne : a :: t ≠ [] := by simp
      have hlast : listGet (a :: t) ((a :: t).length - 1) =
          (a :: t).getLast hne := by
        rw [List.getLast_eq_getElem]
        exact List.getD_eq_getElem _ _ (by simp)
      have hsplit : (b :: u) ++ [listGet (a :: t) ((a :: t).length - 1)] =
          a :: t := by
        rw [hlast, ← hd]; exact List.dropLast_append_getLast hne
      have hsu := siftup_perm ((b :: u).set 0
        (listGet (a :: t) ((a :: t).length - 1))) 0 (by simp)
      simp only [List.set_cons_zero] at hsu
      have hg : listGet (b :: u) 0 = b := rfl
      rw [hg]
      refine List.Perm.trans (List.Perm.cons b hsu) ?_
      have hstep : (b :: listGet (a :: t) ((a :: t).length - 1) :: u).Perm
          ((b :: u) ++ [listGet (a :: t) ((a :: t).length - 1)]) :=
        List.Perm.cons b
          (@List.perm_append_comm _ [listGet (a :: t) ((a :: t).length - 1)] u)
      rw [hsplit] at hstep
      exact hstep

/-! Structural invariant of the trees living in the heap during
`_build_huffman_tree`: leaves carry a character and no children, merged
nodes carry no character and a weight equal to the sum of their
children's weights. -/

inductive Good : HNode → Prop where
  | leaf (c w : Nat) : Good (.mk (some c) w .nil .nil)
  | node (l r : HNode) : Good l → Good r →
      Good (.mk none (l.freqOf + r.freqOf) l r)

theorem Good.shape {t : HNode} (h : Good t) :
    ∃ c f l r, t = .mk c f l r := by
  cases h with
  | leaf c w => exact ⟨_, _, _, _, rfl⟩
  | node l r _ _ => exact ⟨_, _, _, _, rfl⟩

/-- The multiset of characters stored at the code-bearing nodes of a tree
(nodes whose `char` is set stop the traversal, mirroring
`_generate_codes`). -/
def charsT : HNode → List Nat
  | .nil => []
  | .mk (some c) _ _ _ => [c]
  | .mk none _ l r => charsT l ++ charsT r

/-- Characters over a whole heap. -/
def charsHeap : List HNode → List Nat
  | [] => []
  | t :: ts => charsT t ++ charsHeap ts

/-- Sum of root weights over a heap. -/
def sumFreq (h : List HNode) : Nat := (h.map HNode.freqOf).sum

theorem charsHeap_perm {l1 l2 : List HNode} (h : l1.Perm l2) :
    (charsHeap l1).Perm (charsHeap l2) := by
  induction h with
  | nil => exact List.Perm.refl _
  | cons x _ ih => exact ih.append_left (charsT x)
  | swap x y l =>
    show (charsT y ++ (charsT x ++ charsHeap l)).Perm
      (charsT x ++ (charsT y ++ charsHeap l))
    rw [← List.append_assoc, ← List.append_assoc]
    exact List.Perm.append_right (charsHeap l) List.perm_append_comm
  | trans _ _ ih1 ih2 => exact ih1.trans ih2

theorem sumFreq_perm {l1 l2 : List HNode} (h : l1.Perm l2) :
    sumFreq l1 = sumFreq l2 := (h.map HNode.freqOf).sum_eq

theorem sumFreq_cons (t : HNode) (ts : List HNode) :
    sumFreq (t :: ts) = t.freqOf + sumFreq ts := by
  simp [sumFreq]

theorem heappush_singleton (item : HNode) : heappush [] item = [item] := rfl

theorem buildLoopGo_singleton : ∀ (fuel : Nat) (t : HNode),
    buildLoopGo fuel [t] = t := by
  intro fuel t
  cases fuel <;> simp [buildLoopGo, listGet]

/-- Invariant of the `while len(heap) > 1` loop: the result is a `Good`
tree collecting exactly the characters and total weight of the heap, and
it is a char-`none` node whenever a merge happened. -/
theorem buildLoopGo_spec : ∀ (fuel : Nat) (heap : List HNode),
    heap.length ≤ fuel → heap ≠ [] → (∀ t ∈ heap, Good t) →
    Good (buildLoopGo fuel heap) ∧
    (charsT (buildLoopGo fuel heap)).Perm (charsHeap heap) ∧
    (buildLoopGo fuel heap).freqOf = sumFreq heap ∧
    (1 < heap.length → ∃ w l r, buildLoopGo fuel heap = .mk none w l r) := by
  intro fuel
  induction fuel with
  | zero =>
    intro heap hlen hne _
    exact absurd (List.eq_nil_of_length_eq_zero (by omega)) hne
  | succ n ih =>
    intro heap hlen hne hgood
    simp only [buildLoopGo]
    split
    · rename_i hgt
      have hperm1 := heappop_perm heap hne
      have hlen1 : (heappop heap).2.length = heap.length - 1 :=
        heappop_length heap
      have hne1 : (heappop heap).2 ≠ [] := by
        rw [← List.length_pos]; omega
      have hperm2 := heappop_perm (heappop heap).2 hne1
      have hlen2 : (heappop (heappop heap).2).2.length = heap.length - 2 := by
        rw [heappop_length]; omega
      have hg1 : Good (heappop heap).1 :=
        hgood _ (hperm1.mem_iff.mp (List.mem_cons_self _ _))
      have hmem2 : ∀ t ∈ (heappop heap).2, t ∈ heap := fun t ht =>
        hperm1.mem_iff.mp (List.mem_cons_of_mem _ ht)
      have hg2 : Good (heappop (heappop heap).2).1 :=
        hgood _ (hmem2 _ (hperm2.mem_iff.mp (List.mem_cons_self _ _)))
      have hmem3 : ∀ t ∈ (heappop (heappop heap).2).2, t ∈ heap := fun t ht =>
        hmem2 _ (hperm2.mem_iff.mp (List.mem_cons_of_mem _ ht))
      have hparent : Good (.mk none ((heappop heap).1.freqOf +
          (heappop (heappop heap).2).1.freqOf) (heappop heap).1
          (heappop (heappop heap).2).1) := Good.node _ _ hg1 hg2
      have hpushperm := heappush_perm (heappop (heappop heap).2).2
        (.mk none ((heappop heap).1.freqOf +
          (heappop (heappop heap).2).1.freqOf) (heappop heap).1
          (heappop (heappop heap).2).1)
      have hlenpush : (heappush (heappop (heappop heap).2).2
          (.mk none ((heappop heap).1.freqOf +
            (heappop (heappop heap).2).1.freqOf) (heappop heap).1
            (heappop (heappop heap).2).1)).length = heap.length - 1 := by
        rw [heappush_length]; omega
      have hnepush : (heappush (heappop (heappop heap).2).2
          (.mk none ((heappop heap).1.freqOf +
            (heappop (heappop heap).2).1.freqOf) (heappop heap).1
            (heappop (heappop heap).2).1)) ≠ [] := by
        rw [← List.length_pos]; omega
      have hgoodpush : ∀ t ∈ (heappush (heappop (heappop heap).2).2
          (.mk none ((heappop heap).1.freqOf +
            (heappop (heappop heap).2).1.freqOf) (heappop heap).1
            (heappop (heappop heap).2).1)), Good t := by
        intro t ht
        rcases List.mem_cons.mp (hpushperm.mem_iff.mp ht) with h | h
        · rw [h]; exact hparent
        · exact hgood _ (hmem3 _ h)
      obtain ⟨ihg, ihc, ihf, ihi⟩ := ih _ (by omega) hnepush hgoodpush
      refine ⟨ihg, ?_, ?_, fun _ => ?_⟩
      · refine ihc.trans ?_
        refine (charsHeap_perm hpushperm).trans ?_
        show (charsT (.mk none ((heappop heap).1.freqOf +
            (heappop (heappop heap).2).1.freqOf) (heappop heap).1
            (heappop (heappop heap).2).1) ++
          charsHeap (heappop (heappop heap).2).2).Perm (charsHeap heap)
        have hstep : charsT (.mk none ((heappop heap).1.freqOf +
            (heappop (heappop heap).2).1.freqOf) (heappop heap).1
            (heappop (heappop heap).2).1) ++
            charsHeap (heappop (heappop heap).2).2 =
            charsT (heappop heap).1 ++
              charsHeap ((heappop (heappop heap).2).1 ::
                (heappop (heappop heap).2).2) := by
          show (charsT (heappop heap).1 ++
              charsT (heappop (heappop heap).2).1) ++
              charsHeap (heappop (heappop heap).2).2 = _
          rw [List.append_assoc]
          rfl
        rw [hstep]
        refine List.Perm.trans (List.Perm.append_left _
          (charsHeap_perm hperm2)) ?_
        exact (charsHeap_perm hperm1)
      · rw [ihf, sumFreq_perm hpushperm, sumFreq_cons]
        show (heappop heap).1.freqOf + (heappop (heappop heap).2).1.freqOf +
          sumFreq (heappop (heappop heap).2).2 = sumFreq heap
        rw [Nat.add_assoc, ← sumFreq_cons, sumFreq_perm hperm2,
          ← sumFreq_cons, sumFreq_perm hperm1]
      · by_cases hp2 : 1 < (heappush (heappop (heappop heap).2).2
            (.mk none ((heappop heap).1.freqOf +
              (heappop (heappop heap).2).1.freqOf) (heappop heap).1
              (heappop (heappop heap).2).1)).length
        · exact ihi hp2
        · have hz : (heappop (heappop heap).2).2 = [] := by
            have := hlenpush
            rw [heappush_length] at this
            exact List.eq_nil_of_length_eq_zero (by omega)
          rw [hz, heappush_singleton, buildLoopGo_singleton]
          exact ⟨_, _, _, rfl⟩
    · rename_i hle
      have h1 : heap.length = 1 := by
        have := List.length_pos.mpr hne
        omega
      obtain ⟨t, rfl⟩ := List.length_eq_one.mp h1
      have hg := hgood t (List.mem_cons_self _ _)
      refine ⟨by simpa [listGet] using hg, ?_, ?_, by intro h; simp at h⟩
      · show (charsT t).Perm (charsT t ++ [])
        simp
      · show HNode.freqOf t = sumFreq [t]
        rw [sumFreq_cons]
        simp [sumFreq]

/-! Facts about the initial heap of leaves. -/

/-- The leaf node pushed for a `(char, freq)` item. -/
def leafOf (p : Nat × Nat) : HNode := .mk (some p.1) p.2 .nil .nil

theorem foldl_heappush_perm : ∀ (ft : List (Nat × Nat)) (acc : List HNode),
    (ft.foldl (fun h p => heappush h (.mk (some p.1) p.2 .nil .nil))
      acc).Perm (acc ++ ft.map leafOf) := by
  intro ft
  induction ft with
  | nil => intro acc; simp
  | cons p rest ih =>
    intro acc
    show (rest.foldl (fun h p => heappush h (.mk (some p.1) p.2 .nil .nil))
        (heappush acc (.mk (some p.1) p.2 .nil .nil))).Perm _
    refine (ih _).trans ?_
    refine List.Perm.trans (List.Perm.append_right (rest.map leafOf)
      (heappush_perm acc (.mk (some p.1) p.2 .nil .nil))) ?_
    show (leafOf p :: acc ++ rest.map leafOf).Perm
      (acc ++ (leafOf p :: rest.map leafOf))
    exact List.perm_middle.symm

theorem heapFromFreqTable_perm (ft : List (Nat × Nat)) :
    (heapFromFreqTable ft).Perm (ft.map leafOf) := by
  simpa using foldl_heappush_perm ft []

theorem heapFromFreqTable_length (ft : List (Nat × Nat)) :
    (heapFromFreqTable ft).length = ft.length := by
  rw [(heapFromFreqTable_perm ft).length_eq]
  simp

theorem charsHeap_map_leafOf : ∀ ft : List (Nat × Nat),
    charsHeap (ft.map leafOf) = ft.map Prod.fst := by
  intro ft
  induction ft with
  | nil => rfl
  | cons p rest ih =>
    show charsT (leafOf p) ++ charsHeap (rest.map leafOf) = _
    rw [ih]
    rfl

theorem sumFreq_map_leafOf : ∀ ft : List (Nat × Nat),
    sumFreq (ft.map leafOf) = (ft.map Prod.snd).sum := by
  intro ft
  induction ft with
  | nil => rfl
  | cons p rest ih =>
    show sumFreq (leafOf p :: rest.map leafOf) = _
    rw [sumFreq_cons, ih]
    rfl

theorem heappop_singleton (t : HNode) : heappop [t] = (t, []) := rfl

/-- Full specification of `_build_huffman_tree` on a non-empty frequency
table: the root is always a char-`none` node; it is either the special
single-entry root (lone leaf on the left, `nil` right child) or a `Good`
merge tree; its characters are exactly the table's keys and its weight
the sum of the table's counts. -/
theorem buildHuffmanTree_spec (ft : List (Nat × Nat)) (hft : ft ≠ []) :
    (∃ w l r, buildHuffmanTree ft = .mk none w l r) ∧
    (charsT (buildHuffmanTree ft)).Perm (ft.map Prod.fst) ∧
    (buildHuffmanTree ft).freqOf = (ft.map Prod.snd).sum ∧
    ((∃ c w, buildHuffmanTree ft =
        .mk none w (.mk (some c) w .nil .nil) .nil) ∨
      Good (buildHuffmanTree ft)) := by
  unfold buildHuffmanTree
  split
  · rename_i hlen1
    have hfl : ft.length = 1 := by
      rw [← heapFromFreqTable_length ft]; exact hlen1
    obtain ⟨p, rfl⟩ := List.length_eq_one.mp hfl
    have hheap : heapFromFreqTable [p] = [leafOf p] :=
      List.perm_singleton.mp (by simpa using heapFromFreqTable_perm [p])
    rw [hheap, heappop_singleton]
    refine ⟨⟨_, _, _, rfl⟩, ?_, ?_, Or.inl ⟨p.1, p.2, ?_⟩⟩
    · show (charsT (leafOf p) ++ charsT .nil).Perm [p.1]
      simp [leafOf, charsT]
    · show (listGet [leafOf p] 0).freqOf = p.2 + 0
      simp [listGet, leafOf, HNode.freqOf]
    · show HNode.mk none (listGet [leafOf p] 0).freqOf (leafOf p) .nil = _
      simp [listGet, leafOf, HNode.freqOf]
  · rename_i hlen1
    have hne : heapFromFreqTable ft ≠ [] := by
      rw [← List.length_pos, heapFromFreqTable_length]
      exact List.length_pos.mpr hft
    have hgood : ∀ t ∈ heapFromFreqTable ft, Good t := by
      intro t ht
      have := (heapFromFreqTable_perm ft).mem_iff.mp ht
      obtain ⟨p, _, rfl⟩ := List.mem_map.mp this
      exact Good.leaf p.1 p.2
    have hgt : 1 < (heapFromFreqTable ft).length := by
      rw [heapFromFreqTable_length]
      have := List.length_pos.mpr hft
      rw [heapFromFreqTable_length] at hlen1
      omega
    obtain ⟨hg, hc, hf, hi⟩ := buildLoopGo_spec (heapFromFreqTable ft).length
      (heapFromFreqTable ft) (by omega) hne hgood
    unfold buildLoop
    refine ⟨hi hgt, ?_, ?_, Or.inr hg⟩
    · refine hc.trans ?_
      refine (charsHeap_perm (heapFromFreqTable_perm ft)).trans ?_
      rw [charsHeap_map_leafOf]
    · rw [hf, sumFreq_perm (heapFromFreqTable_perm ft), sumFreq_map_leafOf]

/-! Correspondence between generated codes and decode walks. -/

/-- `Reaches t code c`: starting at `t`, consuming exactly the bits of
`code` steps through char-`none` nodes and ends on a node whose `char` is
`some c` — precisely the walk `_decode_data` performs for one symbol. -/
inductive Reaches : HNode → List Bool → Nat → Prop where
  | last (t : HNode) (b : Bool) (c w : Nat) (l r : HNode) :
      stepT t b = .mk (some c) w l r → Reaches t [b] c
  | cons (t : HNode) (b : Bool) (w : Nat) (l r : HNode) (code : List Bool)
      (c : Nat) : stepT t b = .mk none w l r →
      Reaches (.mk none w l r) code c → Reaches t (b :: code) c

/-- Decoding a reachable code followed by anything emits the code's
character and restarts at the root. -/
theorem decodeLoop_reaches (root : HNode) {cur : HNode} {code : List Bool}
    {c : Nat} (h : Reaches cur code c) : ∀ rest : List Bool,
    decodeLoop root (code ++ rest) cur =
      (decodeLoop root rest root).map (fun ds => c :: ds) := by
  induction h with
  | last t b c w l r hstep =>
    intro rest
    show decodeLoop root (b :: rest) t = _
    simp only [decodeLoop, hstep]
  | cons t b w l r code c hstep _ ih =>
    intro rest
    show decodeLoop root (b :: (code ++ rest)) t = _
    simp only [decodeLoop, hstep]
    exact ih rest

/-- Every code recorded by the traversal extends its prefix argument. -/
theorem traverseCodes_ext : ∀ (t : HNode) (pre : List Bool) (c : Nat)
    (code : List Bool), (c, code) ∈ traverseCodes t pre →
    ∃ s, code = pre ++ s := by
  intro t
  induction t with
  | nil => intro pre c code h; simp [traverseCodes] at h
  | mk co f l r ihl ihr =>
    intro pre c code h
    match co with
    | some ch =>
      simp only [traverseCodes, List.mem_singleton, Prod.mk.injEq] at h
      obtain ⟨h1, h2⟩ := h
      by_cases hpre : pre = []
      · subst hpre
        exact ⟨[false], by simpa using h2⟩
      · rw [if_neg hpre] at h2
        exact ⟨[], by simp [h2]⟩
    | none =>
      unfold traverseCodes at h
      rcases List.mem_append.mp h with hm | hm
      · match l, hm with
        | .mk c2 f2 l2 r2, hm =>
          obtain ⟨s, hs⟩ := ihl (pre ++ [false]) c code hm
          exact ⟨false :: s, by simp [hs]⟩
      · match r, hm with
        | .mk c2 f2 l2 r2, hm =>
          obtain ⟨s, hs⟩ := ihr (pre ++ [true]) c code hm
          exact ⟨true :: s, by simp [hs]⟩

/-- On a `Good` tree, each recorded `(c, code)` is either the tree's own
leaf entry, or `code` extends the prefix by a suffix whose walk from the
(char-`none`) node reaches `c`. -/
theorem traverseCodes_reach {t : HNode} (hg : Good t) :
    ∀ (pre : List Bool) (c : Nat) (code : List Bool),
    (c, code) ∈ traverseCodes t pre →
    (∃ w, t = .mk (some c) w .nil .nil ∧
      code = (if pre = [] then [false] else pre)) ∨
    ((∃ w l r, t = .mk none w l r) ∧
      ∃ suf, code = pre ++ suf ∧ Reaches t suf c) := by
  induction hg with
  | leaf c0 w =>
    intro pre c code h
    simp only [traverseCodes, List.mem_singleton, Prod.mk.injEq] at h
    obtain ⟨h1, h2⟩ := h
    exact Or.inl ⟨w, by rw [h1], h2⟩
  | node l r hgl hgr ihl ihr =>
    intro pre c code h
    obtain ⟨cl, fl, ll, rl, hl⟩ := hgl.shape
    obtain ⟨cr, fr, lr2, rr2, hr⟩ := hgr.shape
    refine Or.inr ⟨⟨_, _, _, rfl⟩, ?_⟩
    unfold traverseCodes at h
    rcases List.mem_append.mp h with hm | hm
    · rw [hl] at hm
      rw [← hl] at hm
      rcases ihl (pre ++ [false]) c code (by rw [hl] at hm ⊢; exact hm) with
        hleaf | hreach
      · obtain ⟨w, hshape, hcode⟩ := hleaf
        rw [if_neg (by simp)] at hcode
        refine ⟨[false], by simpa using hcode, ?_⟩
        refine Reaches.last _ false c w .nil .nil ?_
        show (if false then r else l) = _
        simpa using hshape
      · obtain ⟨⟨w, l2, r2, hshape⟩, suf, hcode, hre⟩ := hreach
        refine ⟨false :: suf, by simpa using hcode, ?_⟩
        refine Reaches.cons _ false w l2 r2 suf c ?_ (hshape ▸ hre)
        show (if false then r else l) = _
        simpa using hshape
    · rw [hr] at hm
      rw [← hr] at hm
      rcases ihr (pre ++ [true]) c code (by rw [hr] at hm ⊢; exact hm) with
        hleaf | hreach
      · obtain ⟨w, hshape, hcode⟩ := hleaf
        rw [if_neg (by simp)] at hcode
        refine ⟨[true], by simpa using hcode, ?_⟩
        refine Reaches.last _ true c w .nil .nil ?_
        show (if true then r else l) = _
        simpa using hshape
      · obtain ⟨⟨w, l2, r2, hshape⟩, suf, hcode, hre⟩ := hreach
        refine ⟨true :: suf, by simpa using hcode, ?_⟩
        refine Reaches.cons _ true w l2 r2 suf c ?_ (hshape ▸ hre)
        show (if true then r else l) = _
        simpa using hshape

/-- Every character in the tree gets some code in the traversal. -/
theorem charsT_have_codes : ∀ (t : HNode) (pre : List Bool) (c : Nat),
    c ∈ charsT t → ∃ code, (c, code) ∈ traverseCodes t pre := by
  intro t
  induction t with
  | nil => intro pre c h; simp [charsT] at h
  | mk co f l r ihl ihr =>
    intro pre c h
    match co with
    | some ch =>
      simp only [charsT, List.mem_singleton] at h
      subst h
      refine ⟨if pre = [] then [false] else pre, ?_⟩
      unfold traverseCodes
      simp
    | none =>
      simp only [charsT] at h
      rcases List.mem_append.mp h with hm | hm
      · have hlne : l ≠ .nil := by
          intro hl; rw [hl] at hm; simp [charsT] at hm
        obtain ⟨code, hcode⟩ := ihl (pre ++ [false]) c hm
        refine ⟨code, ?_⟩
        unfold traverseCodes
        refine List.mem_append.mpr (Or.inl ?_)
        match l, hlne with
        | .mk c2 f2 l2 r2, _ => exact hcode
      · have hrne : r ≠ .nil := by
          intro hr; rw [hr] at hm; simp [charsT] at hm
        obtain ⟨code, hcode⟩ := ihr (pre ++ [true]) c hm
        refine ⟨code, ?_⟩
        unfold traverseCodes
        refine List.mem_append.mpr (Or.inr ?_)
        match r, hrne with
        | .mk c2 f2 l2 r2, _ => exact hcode

/-! Dictionary-lookup facts. -/

theorem lookupCode_mem : ∀ (codes : List (Nat × List Bool)) (b : Nat)
    (v : List Bool), lookupCode codes b = some v → (b, v) ∈ codes := by
  intro codes
  induction codes with
  | nil => intro b v h; simp [lookupCode] at h
  | cons p rest ih =>
    intro b v h
    match p with
    | (k, w) =>
      simp only [lookupCode] at h
      split at h
      · rename_i hk
        cases h
        subst hk
        exact List.mem_cons_self _ _
      · exact List.mem_cons_of_mem _ (ih b v h)

theorem lookupCode_isSome : ∀ (codes : List (Nat × List Bool)) (b : Nat)
    (v : List Bool), (b, v) ∈ codes → ∃ v2, lookupCode codes b = some v2 := by
  intro codes
  induction codes with
  | nil => intro b v h; simp at h
  | cons p rest ih =>
    intro b v h
    match p with
    | (k, w) =>
      simp only [lookupCode]
      by_cases hk : k = b
      · exact ⟨w, by rw [if_pos hk]⟩
      · rw [if_neg hk]
        rcases List.mem_cons.mp h with he | hm
        · cases he; exact absurd rfl hk
        · exact ih b v hm

/-! Frequency-table facts. -/

/-- First-match count lookup in an association list (0 when absent),
matching dict indexing on the tables built by `insertByte`. -/
def countOf (ft : List (Nat × Nat)) (b : Nat) : Nat :=
  match ft with
  | [] => 0
  | (k, v) :: rest => if k = b then v else countOf rest b

theorem countOf_insertByte : ∀ (acc : List (Nat × Nat)) (b b' : Nat),
    countOf (insertByte acc b) b' =
      if b' = b then countOf acc b' + 1 else countOf acc b' := by
  intro acc
  induction acc with
  | nil =>
    intro b b'
    simp only [insertByte, countOf]
    by_cases h : b' = b
    · subst h; simp
    · rw [if_neg (fun hx => h hx.symm), if_neg h]
  | cons p rest ih =>
    intro b b'
    match p with
    | (k, v) =>
      simp only [insertByte]
      by_cases hk : k = b
      · rw [if_pos hk]
        subst hk
        simp only [countOf]
        by_cases hb : k = b'
        · subst hb
          simp
        · rw [if_neg hb, if_neg (fun h => hb h.symm), if_neg hb]
      · rw [if_neg hk]
        simp only [countOf]
        by_cases hk' : k = b'
        · rw [if_pos hk', if_neg (show ¬ b' = b by omega), if_pos hk']
        · rw [if_neg hk', ih]
          by_cases hb : b' = b
          · rw [if_pos hb, if_pos hb, if_neg hk']
          · rw [if_neg hb, if_neg hb, if_neg hk']

theorem countOf_foldl : ∀ (data : List Nat) (acc : List (Nat × Nat))
    (b : Nat), countOf (data.foldl insertByte acc) b =
      countOf acc b + data.count b := by
  intro data
  induction data with
  | nil => intro acc b; simp
  | cons d rest ih =>
    intro acc b
    show countOf (rest.foldl insertByte (insertByte acc d)) b = _
    rw [ih, countOf_insertByte]
    rw [List.count_cons]
    by_cases h : b = d
    · rw [if_pos h, if_pos (by simp [h])]
      omega
    · rw [if_neg h, if_neg (by simpa using Ne.symm h)]
      omega

theorem countOf_buildFrequencyTable (data : List Nat) (b : Nat) :
    countOf (buildFrequencyTable data) b = data.count b := by
  unfold buildFrequencyTable
  rw [countOf_foldl]
  simp [countOf]

theorem mem_keys_insertByte : ∀ (acc : List (Nat × Nat)) (b b' : Nat),
    b' ∈ (insertByte acc b).map Prod.fst ↔
      b' ∈ acc.map Prod.fst ∨ b' = b := by
  intro acc
  induction acc with
  | nil => intro b b'; simp [insertByte]
  | cons p rest ih =>
    intro b b'
    match p with
    | (k, v) =>
      simp only [insertByte]
      by_cases hk : k = b
      · rw [if_pos hk]
        subst hk
        simp only [List.map_cons, List.mem_cons]
        constructor
        · intro h; rcases h with h | h
          · exact Or.inr h
          · exact Or.inl (Or.inr h)
        · intro h; rcases h with (h | h) | h
          · exact Or.inl h
          · exact Or.inr h
          · exact Or.inl h
      · rw [if_neg hk]
        simp only [List.map_cons, List.mem_cons, ih]
        tauto

theorem mem_keys_foldl : ∀ (data : List Nat) (acc : List (Nat × Nat))
    (b : Nat), b ∈ (data.foldl insertByte acc).map Prod.fst ↔
      b ∈ acc.map Prod.fst ∨ b ∈ data := by
  intro data
  induction data with
  | nil => intro acc b; simp
  | cons d rest ih =>
    intro acc b
    show b ∈ (rest.foldl insertByte (insertByte acc d)).map Prod.fst ↔ _
    rw [ih, mem_keys_insertByte]
    simp only [List.mem_cons]
    tauto

theorem mem_keys_buildFrequencyTable (data : List Nat) (b : Nat) :
    b ∈ (buildFrequencyTable data).map Prod.fst ↔ b ∈ data := by
  unfold buildFrequencyTable
  rw [mem_keys_foldl]
  simp

theorem sum_insertByte : ∀ (acc : List (Nat × Nat)) (b : Nat),
    ((insertByte acc b).map Prod.snd).sum = (acc.map Prod.snd).sum + 1 := by
  intro acc
  induction acc with
  | nil => intro b; simp [insertByte]
  | cons p rest ih =>
    intro b
    match p with
    | (k, v) =>
      simp only [insertByte]
      by_cases hk : k = b
      · rw [if_pos hk]
        simp only [List.map_cons, List.sum_cons]
        omega
      · rw [if_neg hk]
        simp only [List.map_cons, List.sum_cons, ih]
        omega

theorem sum_foldl : ∀ (data : List Nat) (acc : List (Nat × Nat)),
    ((data.foldl insertByte acc).map Prod.snd).sum =
      (acc.map Prod.snd).sum + data.length := by
  intro data
  induction data with
  | nil => intro acc; simp
  | cons d rest ih =>
    intro acc
    show ((rest.foldl insertByte (insertByte acc d)).map Prod.snd).sum = _
    rw [ih, sum_insertByte]
    simp only [List.length_cons]
    omega

theorem sum_buildFrequencyTable (data : List Nat) :
    ((buildFrequencyTable data).map Prod.snd).sum = data.length := by
  unfold buildFrequencyTable
  rw [sum_foldl]
  simp

theorem buildFrequencyTable_ne_nil {data : List Nat} (h : data ≠ []) :
    buildFrequencyTable data ≠ [] := by
  match data, h with
  | d :: rest, _ =>
    intro hft
    have := (mem_keys_buildFrequencyTable (d :: rest) d).mpr
      (List.mem_cons_self _ _)
    rw [hft] at this
    simp at this

theorem foldl_insertByte_const : ∀ (data : List Nat) (x n : Nat),
    (∀ b ∈ data, b = x) →
    data.foldl insertByte [(x, n)] = [(x, n + data.length)] := by
  intro data
  induction data with
  | nil => intro x n _; simp
  | cons d rest ih =>
    intro x n hconst
    have hd : d = x := hconst d (List.mem_cons_self _ _)
    have hstep : insertByte [(x, n)] d = [(x, n + 1)] := by
      rw [hd]; simp [insertByte]
    show rest.foldl insertByte (insertByte [(x, n)] d) = _
    rw [hstep, ih x (n + 1) (fun b hb => hconst b (List.mem_cons_of_mem _ hb))]
    simp only [List.length_cons]
    have harith : n + 1 + rest.length = n + (rest.length + 1) := by omega
    rw [harith]

theorem buildFrequencyTable_const {data : List Nat} {x : Nat}
    (hne : data ≠ []) (hconst : ∀ b ∈ data, b = x) :
    buildFrequencyTable data = [(x, data.length)] := by
  match data, hne with
  | d :: rest, _ =>
    have hd : d = x := hconst d (List.mem_cons_self _ _)
    show (d :: rest).foldl insertByte [] = _
    simp only [List.foldl_cons]
    show rest.foldl insertByte (insertByte [] d) = _
    rw [hd]
    show rest.foldl insertByte [(x, 1)] = _
    rw [foldl_insertByte_const rest x 1
      (fun b hb => hconst b (List.mem_cons_of_mem _ hb))]
    simp only [List.length_cons]
    have harith : 1 + rest.length = rest.length + 1 := by omega
    rw [harith]

/-! The built tree gives every input byte a code whose walk decodes back
to that byte. -/

theorem generateCodes_mk (c : Option Nat) (f : Nat) (l r : HNode) :
    generateCodes (.mk c f l r) = traverseCodes (.mk c f l r) [] := rfl

theorem codes_reach (data : List Nat) (hne : data ≠ []) :
    (∃ w l r, buildHuffmanTree (buildFrequencyTable data) = .mk none w l r) ∧
    ∀ b ∈ data, ∃ code,
      lookupCode (generateCodes (buildHuffmanTree (buildFrequencyTable data)))
        b = some code ∧
      Reaches (buildHuffmanTree (buildFrequencyTable data)) code b := by
  obtain ⟨⟨w, l, r, hshape⟩, hchars, _, hroot⟩ :=
    buildHuffmanTree_spec (buildFrequencyTable data)
      (buildFrequencyTable_ne_nil hne)
  refine ⟨⟨w, l, r, hshape⟩, ?_⟩
  intro b hb
  have hkey : b ∈ (buildFrequencyTable data).map Prod.fst :=
    (mem_keys_buildFrequencyTable data b).mpr hb
  have hchar : b ∈ charsT (buildHuffmanTree (buildFrequencyTable data)) :=
    hchars.mem_iff.mpr hkey
  have hmem : ∃ code, (b, code) ∈
      traverseCodes (buildHuffmanTree (buildFrequencyTable data)) [] :=
    charsT_have_codes _ [] b hchar
  obtain ⟨code0, hcode0⟩ := hmem
  have hmem2 : (b, code0) ∈
      generateCodes (buildHuffmanTree (buildFrequencyTable data)) := by
    rw [hshape, generateCodes_mk, ← hshape]
    exact hcode0
  obtain ⟨code, hlook⟩ := lookupCode_isSome _ b code0 hmem2
  have hmem3 : (b, code) ∈
      generateCodes (buildHuffmanTree (buildFrequencyTable data)) :=
    lookupCode_mem _ b code hlook
  have hmem4 : (b, code) ∈
      traverseCodes (buildHuffmanTree (buildFrequencyTable data)) [] := by
    rw [hshape, generateCodes_mk, ← hshape] at hmem3
    exact hmem3
  refine ⟨code, hlook, ?_⟩
  rcases hroot with hsingle | hgood
  · obtain ⟨c0, w0, hs⟩ := hsingle
    rw [hs] at hmem4
    have hval : traverseCodes (.mk none w0 (.mk (some c0) w0 .nil .nil) .nil)
        [] = [(c0, [false])] := by
      unfold traverseCodes
      simp [traverseCodes]
    rw [hval, List.mem_singleton, Prod.mk.injEq] at hmem4
    obtain ⟨hb0, hc0⟩ := hmem4
    rw [hs, hc0]
    refine Reaches.last _ false b w0 .nil .nil ?_
    show (if false then HNode.nil else .mk (some c0) w0 .nil .nil) = _
    simp [hb0]
  · rcases traverseCodes_reach hgood [] b code hmem4 with hleaf | hreach
    · obtain ⟨w2, hshape2, _⟩ := hleaf
      rw [hshape] at hshape2
      simp at hshape2
    · obtain ⟨_, suf, hcode, hre⟩ := hreach
      simpa [hcode] using hre

/-- Encoding a list of reachable-coded bytes succeeds, and decoding the
concatenation restores the bytes. -/
theorem encode_decode (root : HNode) (codes : List (Nat × List Bool)) :
    ∀ data : List Nat,
    (∀ b ∈ data, ∃ code, lookupCode codes b = some code ∧
      Reaches root code b) →
    ∃ enc, encodeData data codes = some enc ∧
      decodeLoop root enc root = some data := by
  intro data
  induction data with
  | nil => intro _; exact ⟨[], rfl, rfl⟩
  | cons b rest ih =>
    intro hall
    obtain ⟨code, hlook, hre⟩ := hall b (List.mem_cons_self _ _)
    obtain ⟨enc, henc, hdec⟩ :=
      ih (fun b2 hb2 => hall b2 (List.mem_cons_of_mem _ hb2))
    refine ⟨code ++ enc, ?_, ?_⟩
    · show encodeData (b :: rest) codes = _
      simp only [encodeData, hlook, henc]
    · rw [decodeLoop_reaches root hre enc, hdec]
      rfl

/-! Packing and unpacking bits. -/

theorem byteToBits_bitsToNat : ∀ b0 b1 b2 b3 b4 b5 b6 b7 : Bool,
    byteToBits (bitsToNat [b0, b1, b2, b3, b4, b5, b6, b7]) =
      [b0, b1, b2, b3, b4, b5, b6, b7] := by decide

theorem bytesToBits_toBytesGo : ∀ (fuel : Nat) (l : List Bool),
    l.length ≤ fuel → l.length % 8 = 0 →
    bytesToBits (toBytesGo fuel l) = l := by
  intro fuel
  induction fuel with
  | zero =>
    intro l hlen _
    have : l = [] := List.eq_nil_of_length_eq_zero (by omega)
    subst this
    rfl
  | succ n ih =>
    intro l hlen hmod
    match l with
    | [] => rfl
    | b0 :: t1 =>
      match t1 with
      | [] => simp at hmod
      | b1 :: t2 =>
        match t2 with
        | [] => simp at hmod
        | b2 :: t3 =>
          match t3 with
          | [] => simp at hmod
          | b3 :: t4 =>
            match t4 with
            | [] => simp at hmod
            | b4 :: t5 =>
              match t5 with
              | [] => simp at hmod
              | b5 :: t6 =>
                match t6 with
                | [] => simp at hmod
                | b6 :: t7 =>
                  match t7 with
                  | [] => simp at hmod
                  | b7 :: rest =>
                    show bytesToBits
                      (bitsToNat [b0, b1, b2, b3, b4, b5, b6, b7] ::
                        toBytesGo n rest) = _
                    show byteToBits (bitsToNat [b0, b1, b2, b3, b4, b5, b6, b7])
                      ++ bytesToBits (toBytesGo n rest) = _
                    rw [byteToBits_bitsToNat]
                    rw [ih rest (by simp at hlen; omega)
                      (by simp [Nat.add_mod] at hmod ⊢; omega)]
                    rfl

theorem bytesToBits_toBytes (l : List Bool) (hmod : l.length % 8 = 0) :
    bytesToBits (toBytes l) = l :=
  bytesToBits_toBytesGo l.length l (Nat.le_refl _) hmod

theorem packPadding_bounds (n : Nat) :
    1 ≤ packPadding n ∧ packPadding n ≤ 8 := by
  unfold packPadding
  omega

/-- Unpacking the packed payload restores the encoded bits followed by the
appended zero padding. -/
theorem bytesToBits_packBits (bits : List Bool) :
    bytesToBits (packBits bits) =
      bits ++ List.replicate (packPadding bits.length % 8) false := by
  by_cases h : packPadding bits.length = 8
  · have hmod : bits.length % 8 = 0 := by
      unfold packPadding at h
      omega
    have hpad : padBits bits = bits := by
      unfold padBits
      rw [if_neg (by simp [h])]
    show bytesToBits (toBytes (padBits bits)) = _
    rw [hpad, bytesToBits_toBytes bits hmod, h]
    simp
  · have hpad : padBits bits =
        bits ++ List.replicate (packPadding bits.length) false := by
      unfold padBits
      rw [if_pos h]
    have hmod : (bits ++ List.replicate (packPadding bits.length) false).length
        % 8 = 0 := by
      simp only [List.length_append, List.length_replicate]
      unfold packPadding at h ⊢
      omega
    show bytesToBits (toBytes (padBits bits)) = _
    rw [hpad, bytesToBits_toBytes
      (bits ++ List.replicate (packPadding bits.length) false) hmod]
    have hsmall : packPadding bits.length % 8 = packPadding bits.length := by
      have := packPadding_bounds bits.length
      omega
    rw [hsmall]

/-- Stripping the stored padding recovers exactly the encoded bits. -/
theorem stripPadding_packBits (bits : List Bool) :
    stripPadding (bytesToBits (packBits bits)) (packPadding bits.length) =
      bits := by
  rw [bytesToBits_packBits]
  unfold stripPadding
  by_cases h : packPadding bits.length = 8
  · rw [if_neg (by simp [h])]
    have hmod : bits.length % 8 = 0 := by
      unfold packPadding at h
      omega
    rw [h]
    simp
  · rw [if_pos h]
    have hb := packPadding_bounds bits.length
    rw [if_neg (by omega)]
    have hlen : (bits ++ List.replicate (packPadding bits.length % 8)
        false).length - packPadding bits.length = bits.length := by
      simp only [List.length_append, List.length_replicate]
      omega
    rw [hlen]
    exact List.take_left' rfl

/-! The compress/decompress round trip. -/

theorem compress_decompress (data : List Nat) (hne : data ≠ []) :
    ∃ cont, compress data = Except.ok cont ∧ decompress cont = some data := by
  obtain ⟨⟨w, l, r, hshape⟩, hall⟩ := codes_reach data hne
  obtain ⟨enc, henc, hdec⟩ := encode_decode
    (buildHuffmanTree (buildFrequencyTable data))
    (generateCodes (buildHuffmanTree (buildFrequencyTable data))) data hall
  refine ⟨{ tree := buildHuffmanTree (buildFrequencyTable data)
            encoded_data := packBits enc
            padding := packPadding enc.length
            original_size := data.length
            compressed_size := (packBits enc).length }, ?_, ?_⟩
  · unfold compress
    rw [if_neg hne, henc]
  · show decodeData (stripPadding (bytesToBits (packBits enc))
      (packPadding enc.length)) (buildHuffmanTree (buildFrequencyTable data)) =
      some data
    rw [stripPadding_packBits, hshape]
    rw [hshape] at hdec
    exact hdec

theorem compress_ok (data : List Nat) (hne : data ≠ []) :
    ∃ cont, compress data = Except.ok cont := by
  obtain ⟨cont, hc, _⟩ := compress_decompress data hne
  exact ⟨cont, hc⟩

theorem compress_emptyInput_iff (data : List Nat) :
    compress data = Except.error CompressError.emptyInput ↔ data = [] := by
  constructor
  · intro h
    by_cases hne : data = []
    · exact hne
    · obtain ⟨cont, hc⟩ := compress_ok data hne
      rw [hc] at h
      cases h
  · intro h
    unfold compress
    rw [if_pos h]

/-! Weight invariant (spec section 8). -/

/-- Every char-`none` (internal) node's weight is the sum of its children's
weights, recursively; absent children contribute 0. -/
def WeightInv : HNode → Prop
  | .nil => True
  | .mk c w l r =>
      (c = none → w = l.freqOf + r.freqOf) ∧ WeightInv l ∧ WeightInv r

theorem good_weightInv {t : HNode} (h : Good t) : WeightInv t := by
  induction h with
  | leaf c w =>
    show (some c = none → w = HNode.freqOf .nil + HNode.freqOf .nil) ∧
      WeightInv .nil ∧ WeightInv .nil
    exact ⟨(fun hc => by cases hc), trivial, trivial⟩
  | node l r _ _ ihl ihr =>
    show (none = (none : Option Nat) →
        l.freqOf + r.freqOf = l.freqOf + r.freqOf) ∧
      WeightInv l ∧ WeightInv r
    exact ⟨fun _ => rfl, ihl, ihr⟩

/-! Prefix-freedom of the generated code book (spec section 8). -/

/-- `IsPre a b`: the bit string `a` is an initial segment of `b`. -/
def IsPre (a b : List Bool) : Prop := ∃ t, a ++ t = b

/-- The relation "neither code is an initial segment of the other". -/
def NoPre (p q : Nat × List Bool) : Prop :=
  ¬ IsPre p.2 q.2 ∧ ¬ IsPre q.2 p.2

theorem isPre_append_cancel {pre a b : List Bool}
    (h : IsPre (pre ++ a) (pre ++ b)) : IsPre a b := by
  obtain ⟨t, ht⟩ := h
  refine ⟨t, ?_⟩
  rw [List.append_assoc] at ht
  exact List.append_cancel_left ht

theorem not_isPre_branch {pre s u : List Bool} :
    ¬ IsPre (pre ++ false :: s) (pre ++ true :: u) := by
  intro h
  obtain ⟨t, ht⟩ := isPre_append_cancel h
  cases ht

theorem not_isPre_branch' {pre s u : List Bool} :
    ¬ IsPre (pre ++ true :: s) (pre ++ false :: u) := by
  intro h
  obtain ⟨t, ht⟩ := isPre_append_cancel h
  cases ht

/-- Codes recorded under a `Good` tree are pairwise non-prefix. -/
theorem traverseCodes_pairwise {t : HNode} (hg : Good t) :
    ∀ pre : List Bool, (traverseCodes t pre).Pairwise NoPre := by
  induction hg with
  | leaf c w =>
    intro pre
    exact List.pairwise_singleton _ _
  | node l r hgl hgr ihl ihr =>
    intro pre
    obtain ⟨cl, fl, ll, rl, hl⟩ := hgl.shape
    obtain ⟨cr, fr, lr2, rr2, hr⟩ := hgr.shape
    unfold traverseCodes
    rw [List.pairwise_append]
    refine ⟨?_, ?_, ?_⟩
    · match l, hl with
      | .mk cl fl ll rl, _ => exact ihl (pre ++ [false])
    · match r, hr with
      | .mk cr fr lr2 rr2, _ => exact ihr (pre ++ [true])
    · intro p hp q hq
      have hpext : ∃ s, p.2 = (pre ++ [false]) ++ s := by
        match l, hl, hp with
        | .mk cl fl ll rl, _, hp =>
          exact traverseCodes_ext _ _ p.1 p.2 (by simpa using hp)
      have hqext : ∃ s, q.2 = (pre ++ [true]) ++ s := by
        match r, hr, hq with
        | .mk cr fr lr2 rr2, _, hq =>
          exact traverseCodes_ext _ _ q.1 q.2 (by simpa using hq)
      obtain ⟨s, hs⟩ := hpext
      obtain ⟨u, hu⟩ := hqext
      constructor
      · rw [hs, hu]
        simpa using @not_isPre_branch pre s u
      · rw [hs, hu]
        simpa using @not_isPre_branch' pre u s

/-! Remaining helper facts for the claims. -/

/-- `_build_huffman_tree` on a one-entry table computes to the special
root with the lone leaf on the left. -/
theorem buildHuffmanTree_single (x n : Nat) :
    buildHuffmanTree [(x, n)] =
      HNode.mk none n (HNode.mk (some x) n HNode.nil HNode.nil) HNode.nil :=
  rfl

/-- `_generate_codes` on the special single-leaf root assigns the 1-bit
code "0". -/
theorem generateCodes_single (x n : Nat) :
    generateCodes
      (HNode.mk none n (HNode.mk (some x) n HNode.nil HNode.nil) HNode.nil) =
      [(x, [false])] := rfl

/-! The claims. -/

/-- C1: Round-trip — for every non-empty byte sequence `data`,
decompressing the container produced by compressing `data` returns
exactly `data`. -/
theorem claim_C1_roundtrip (data : List Nat) (h : data ≠ []) :
    ∃ cont, compress data = Except.ok cont ∧ decompress cont = some data :=
  compress_decompress data h

/-- C1 witness at the concrete input `[104, 105]`. -/
theorem claim_C1_roundtrip_witness :
    [104, 105] ≠ ([] : List Nat) ∧
    ∃ cont, compress [104, 105] = Except.ok cont ∧
      decompress cont = some [104, 105] :=
  ⟨by decide, claim_C1_roundtrip [104, 105] (by decide)⟩

/-- C2 counterexample: a container whose tree decodes bytes 97/98, whose
two usable payload bits decode to exactly two bytes, but whose
`original_size` (symbol count) says 3 — decoding succeeds with 2 bytes
rather than stopping at `symbol_count` or failing with
`DecodeTraversalError`. -/
theorem claim_C2_counterexample :
    decompress
      { tree := HNode.mk none 2 (HNode.mk (some 97) 1 HNode.nil HNode.nil)
          (HNode.mk (some 98) 1 HNode.nil HNode.nil)
        encoded_data := [0]
        padding := 6
        original_size := 3
        compressed_size := 1 } = some [97, 97] ∧
    ([97, 97] : List Nat).length ≠ 3 :=
  ⟨rfl, by decide⟩

/-- C2 amended: decoding terminates on bit exhaustion; the container's
`original_size` (the only symbol count stored) is never consulted by
decompression, so two containers differing only in it decode
identically. -/
theorem claim_C2_decode_ignores_symbol_count (t : HNode) (eb : List Nat)
    (p n1 c1 n2 c2 : Nat) :
    decompress ⟨t, eb, p, n1, c1⟩ = decompress ⟨t, eb, p, n2, c2⟩ := rfl

/-- C3 counterexample: for a bit sequence of length 8, the stored padding
count is 8, not `(8 - 8 % 8) % 8 = 0`. -/
theorem claim_C3_counterexample :
    packPadding (List.replicate 8 false).length = 8 ∧
    packPadding (List.replicate 8 false).length ≠
      (8 - (List.replicate 8 false).length % 8) % 8 := by decide

/-- C3 amended: pack groups bits into 8-bit bytes left-to-right, padding
the final byte with 0 bits on the right; the stored padding count is
`8 - len(bits) % 8`, which lies in 1..8 and is 8 (not 0) when the length
is a multiple of 8; unpacking restores the bits followed by the appended
zero bits, and stripping the stored padding restores the bits exactly. -/
theorem claim_C3_pack_spec (bits : List Bool) :
    packPadding bits.length = 8 - bits.length % 8 ∧
    1 ≤ packPadding bits.length ∧ packPadding bits.length ≤ 8 ∧
    bytesToBits (packBits bits) =
      bits ++ List.replicate (packPadding bits.length % 8) false ∧
    stripPadding (bytesToBits (packBits bits)) (packPadding bits.length) =
      bits :=
  ⟨rfl, (packPadding_bounds _).1, (packPadding_bounds _).2,
    bytesToBits_packBits bits, stripPadding_packBits bits⟩

/-- C4: compress fails with the empty-input error exactly on the empty
byte sequence; every non-empty input yields a container, and the
frequency table holds the exact count of every byte value. -/
theorem claim_C4_empty_input (data : List Nat) :
    (compress data = Except.error CompressError.emptyInput ↔ data = []) ∧
    (data ≠ [] → ∃ cont, compress data = Except.ok cont) ∧
    (∀ b : Nat, countOf (buildFrequencyTable data) b = data.count b) :=
  ⟨compress_emptyInput_iff data, compress_ok data,
    fun b => countOf_buildFrequencyTable data b⟩

/-- C4 witness: the empty input fails with the empty-input error and the
concrete input `[5]` compresses successfully. -/
theorem claim_C4_empty_input_witness :
    compress [] = Except.error CompressError.emptyInput ∧
    ∃ cont, compress [5] = Except.ok cont :=
  ⟨(claim_C4_empty_input []).1.mpr rfl,
    (claim_C4_empty_input [5]).2.1 (by decide)⟩

/-- C5: for every input with exactly one distinct byte value `x`, the tree
is an internal root with the lone leaf as left child (never a bare leaf
root), the code book maps `x` to the 1-bit code "0"; for the input
`[120]` the packed payload is 1 byte with 7 padding bits and decompress
returns `[120]`. -/
theorem claim_C5_single_byte (data : List Nat) (x : Nat) (hne : data ≠ [])
    (hconst : ∀ b ∈ data, b = x) :
    buildHuffmanTree (buildFrequencyTable data) =
      HNode.mk none data.length
        (HNode.mk (some x) data.length HNode.nil HNode.nil) HNode.nil ∧
    generateCodes (buildHuffmanTree (buildFrequencyTable data)) =
      [(x, [false])] ∧
    (∃ cont, compress [120] = Except.ok cont ∧ cont.encoded_data = [0] ∧
      cont.encoded_data.length = 1 ∧ cont.padding = 7 ∧
      decompress cont = some [120]) := by
  rw [buildFrequencyTable_const hne hconst, buildHuffmanTree_single,
    generateCodes_single]
  refine ⟨rfl, rfl, ⟨_, rfl, rfl, rfl, rfl, rfl⟩⟩

/-- C5 witness at the concrete input `[120]`. -/
theorem claim_C5_single_byte_witness :
    buildHuffmanTree (buildFrequencyTable [120]) =
      HNode.mk none [120].length
        (HNode.mk (some 120) [120].length HNode.nil HNode.nil) HNode.nil ∧
    generateCodes (buildHuffmanTree (buildFrequencyTable [120])) =
      [(120, [false])] ∧
    (∃ cont, compress [120] = Except.ok cont ∧ cont.encoded_data = [0] ∧
      cont.encoded_data.length = 1 ∧ cont.padding = 7 ∧
      decompress cont = some [120]) :=
  claim_C5_single_byte [120] 120 (by decide) (by decide)

/-- C6: for every tree built from the frequency table of a non-empty
input, every internal (char-`none`) node's weight is the sum of its
children's weights, and the root's weight equals the input length. -/
theorem claim_C6_weight_invariant (data : List Nat) (hne : data ≠ []) :
    WeightInv (buildHuffmanTree (buildFrequencyTable data)) ∧
    (buildHuffmanTree (buildFrequencyTable data)).freqOf = data.length := by
  obtain ⟨_, _, hf, hroot⟩ :=
    buildHuffmanTree_spec _ (buildFrequencyTable_ne_nil hne)
  constructor
  · rcases hroot with ⟨c, w, hs⟩ | hgood
    · rw [hs]
      show (none = (none : Option Nat) →
          w = (HNode.mk (some c) w HNode.nil HNode.nil).freqOf +
            HNode.freqOf .nil) ∧
        WeightInv (HNode.mk (some c) w HNode.nil HNode.nil) ∧ WeightInv .nil
      exact ⟨(fun _ => by simp [HNode.freqOf]),
        good_weightInv (Good.leaf c w), trivial⟩
    · exact good_weightInv hgood
  · rw [hf, sum_buildFrequencyTable]

/-- C6 witness at the concrete input `[7, 7, 5]`. -/
theorem claim_C6_weight_invariant_witness :
    WeightInv (buildHuffmanTree (buildFrequencyTable [7, 7, 5])) ∧
    (buildHuffmanTree (buildFrequencyTable [7, 7, 5])).freqOf =
      [7, 7, 5].length :=
  claim_C6_weight_invariant [7, 7, 5] (by decide)

/-- C7: for every non-empty input, no code in the code book derived from
the built tree is a prefix of another code in the same code book. -/
theorem claim_C7_prefix_free (data : List Nat) (hne : data ≠ []) :
    (generateCodes
      (buildHuffmanTree (buildFrequencyTable data))).Pairwise NoPre := by
  obtain ⟨⟨w, l, r, hshape⟩, _, _, hroot⟩ :=
    buildHuffmanTree_spec _ (buildFrequencyTable_ne_nil hne)
  rcases hroot with ⟨c, w0, hs⟩ | hgood
  · rw [hs, generateCodes_single]
    exact List.pairwise_singleton _ _
  · rw [hshape, generateCodes_mk, ← hshape]
    exact traverseCodes_pairwise hgood []

/-- C7 witness at the concrete input `[1, 2, 2, 3]`. -/
theorem claim_C7_prefix_free_witness :
    (generateCodes
      (buildHuffmanTree (buildFrequencyTable [1, 2, 2, 3]))).Pairwise NoPre :=
  claim_C7_prefix_free [1, 2, 2, 3] (by decide)

/-- C8 counterexample: push four equal-weight leaves for characters
0, 1, 2, 3 in that order; the second extraction is the leaf for 2, not
the second-inserted leaf for 1 — with equal weights the first-inserted
node is not extracted first. -/
theorem claim_C8_counterexample :
    (heappop (heappop
      (heapFromFreqTable [(0, 1), (1, 1), (2, 1), (3, 1)])).2).1 =
      HNode.mk (some 2) 1 HNode.nil HNode.nil ∧
    HNode.mk (some 2) 1 HNode.nil HNode.nil ≠
      HNode.mk (some 1) 1 HNode.nil HNode.nil := by decide

/-- C8 amended: extraction order on equal weights follows the binary
heap's deterministic sift rules (not insertion order), and construction
is a function of the frequency table alone: two inputs with the same
frequency table (hence the same insertion order) yield identical code
books. -/
theorem claim_C8_determinism (d1 d2 : List Nat)
    (h : buildFrequencyTable d1 = buildFrequencyTable d2) :
    generateCodes (buildHuffmanTree (buildFrequencyTable d1)) =
      generateCodes (buildHuffmanTree (buildFrequencyTable d2)) := by
  rw [h]

/-- C8 witness at the concrete inputs `[5, 6]` and `[5, 6]`. -/
theorem claim_C8_determinism_witness :
    generateCodes (buildHuffmanTree (buildFrequencyTable [5, 6])) =
      generateCodes (buildHuffmanTree (buildFrequencyTable [5, 6])) :=
  claim_C8_determinism [5, 6] [5, 6] rfl

/-- C9 counterexample: deriving a code book from the absent (`None`) tree
returns the empty code book — a result, not an `EmptyTreeError`
failure. -/
theorem claim_C9_counterexample :
    generateCodes HNode.nil = [] := rfl

/-- C9 amended: deriving a code book from an absent/null tree returns the
empty code book without failing, so no byte value has a code. -/
theorem claim_C9_null_tree_codes :
    generateCodes HNode.nil = [] ∧
    ∀ b : Nat, lookupCode (generateCodes HNode.nil) b = none :=
  ⟨rfl, fun _ => rfl⟩

/-- C10: decoding with an absent/null tree does not fail — for every bit
sequence, decode with a null tree returns the empty byte sequence. -/
theorem claim_C10_decode_null_tree (bits : List Bool) :
    decodeData bits HNode.nil = some [] := rfl

end FileCompression
